import Mathlib

/-!
Verification of the fence-keyed resource-lifetime core of the
D3D12 translation layer (ImmediateContext.hpp):

* `CFencePool` (ReturnToPool / RetrieveFromPool),
* `CBoundedFencePool` (RetrieveFromPool with a wait callback),
* `CFencedRingBuffer` (Allocate / Deallocate with the 16-slot fence ledger),
* `CDescriptorHeapManager` (AllocateHeapSlot / FreeHeapSlot free-list pages),
* `DeferredDeletionQueueManager` (AddSuballocationToQueue) and the
  retired-object taxonomy.

The C++ classes are embedded shallowly: every member function becomes a pure
Lean function on an explicit state value.  `UINT64`/`UINT32` counters are
modelled as `Nat` (the programs only ever compare and add these counters and
no realizable call sequence wraps a 64-bit fence or head/tail counter).
Exceptions (`bad_alloc`) are modelled by an explicit boolean oracle, callbacks
(`pfnCreateNew`, `pfnWaitForFenceValue`) by values and by event lists recording
which callbacks the code invoked.
-/

namespace OpenCLOn12

/-! ## CFencePool and CBoundedFencePool

A pool is the list `m_Pool` of (fence value, resource) pairs, oldest first
(`emplace_back` appends, `begin()` is the head). -/

/-- Embedding of `CFencePool::ReturnToPool`.  The `try { emplace_back } catch
(bad_alloc) {}` body is modelled with an allocation-failure oracle `oom`:
when the `emplace_back` allocation throws, the pool is left unchanged and the
error is swallowed (the dropped resource is released by its destructor). -/
def ReturnToPool (oom : Bool) (pool : List (Nat × α)) (FenceValue : Nat) (Resource : α) :
    List (Nat × α) :=
  if oom then pool else pool ++ [(FenceValue, Resource)]

/-- Result of a retrieve call: the returned resource, the pool afterwards,
whether `pfnCreateNew` was invoked, and the list of fence values passed to
`pfnWaitForFenceValue` (always empty for the unbounded pool). -/
structure RetrieveResult (α : Type) where
  result : α
  pool : List (Nat × α)
  createdNew : Bool
  waitCalls : List Nat
deriving DecidableEq

/-- Embedding of `CFencePool::RetrieveFromPool`.  `fresh` stands for the value
`pfnCreateNew(CreationArgs...)` would produce. -/
def RetrieveFromPool (CurrentFenceValue : Nat) (fresh : α) (pool : List (Nat × α)) :
    RetrieveResult α :=
  match pool with
  | [] => ⟨fresh, [], true, []⟩
  | (f, r) :: rest =>
    if CurrentFenceValue < f then ⟨fresh, (f, r) :: rest, true, []⟩
    else ⟨r, rest, false, []⟩

/-- Embedding of `CBoundedFencePool::RetrieveFromPool`.  The wait branch calls
`pfnWaitForFenceValue(Head->first)` and then falls through to pop the head. -/
def BoundedRetrieveFromPool (CurrentFenceValue : Nat) (MaxInFlightDepth : Nat)
    (fresh : α) (pool : List (Nat × α)) : RetrieveResult α :=
  match pool with
  | [] => ⟨fresh, [], true, []⟩
  | (f, r) :: rest =>
    if CurrentFenceValue < f then
      if rest.length + 1 < MaxInFlightDepth then ⟨fresh, (f, r) :: rest, true, []⟩
      else ⟨r, rest, false, [f]⟩
    else ⟨r, rest, false, []⟩

/-! ## CFencedRingBuffer

State of the ring buffer.  `m_Head`/`m_Tail` are the unbounded `UINT64`
counters (`m_Head` is initialized to `Size`, so the logical head of the live
region is `m_Head - Size`).  The 16-entry ledger array is a function
`Fin 16 → LedgerEntry`; the `UINT32` bitmask `m_LedgerMask` is embedded as
`Fin 16 → Bool` (bit `i` of the mask ↔ `ledgerMask i`; `cLedgerSize = 16`
fits in the 32 bits, as the source's static_assert checks).  `m_LedgerIndex`
is kept in `Fin 16`: the source increments it and reduces mod 16
(`m_LedgerIndex++; m_LedgerIndex %= cLedgerSize`), which is `Fin` addition. -/

structure LedgerEntry where
  fenceValue : Nat
  numAllocations : Nat
deriving DecidableEq

structure RingState where
  head : Nat
  tail : Nat
  size : Nat
  ledger : Fin 16 → LedgerEntry
  ledgerMask : Fin 16 → Bool
  ledgerIndex : Fin 16

/-- The constructor `CFencedRingBuffer(Size)`: `m_Head = Size`, `m_Tail = 0`,
zeroed ledger, `m_LedgerMask = 0x1`, `m_LedgerIndex = 0`. -/
def ringInit (Size : Nat) : RingState :=
  { head := Size
    tail := 0
    size := Size
    ledger := fun _ => ⟨0, 0⟩
    ledgerMask := fun i => decide (i = 0)
    ledgerIndex := 0 }

/-- `CFencedRingBuffer::DereferenceTail`: `m_Tail % m_Size`. -/
def DereferenceTail (s : RingState) : Nat := s.tail % s.size

/-- `CFencedRingBuffer::MoveToNextLedgerEntry`.  Note that `m_LedgerIndex` is
advanced (mod 16) before the availability check, so it is advanced even on the
failing path.  Returns the new state and `true` for `S_OK`. -/
def MoveToNextLedgerEntry (CurrentFenceValue : Nat) (s : RingState) : RingState × Bool :=
  if s.ledgerMask (s.ledgerIndex + 1) = false then
    ({ s with
        ledgerIndex := s.ledgerIndex + 1
        ledgerMask := Function.update s.ledgerMask (s.ledgerIndex + 1) true
        ledger := Function.update s.ledger (s.ledgerIndex + 1) ⟨CurrentFenceValue, 0⟩ },
     true)
  else
    ({ s with ledgerIndex := s.ledgerIndex + 1 }, false)

/-- The final step of `CFencedRingBuffer::Allocate`: the contiguity check
`m_Tail + NumItems <= m_Head` followed by `OffsetOut = DereferenceTail()`
(evaluated before the tail advances), the ledger-count bump and
`m_Tail += NumItems`; on failure `OffsetOut = UINT32(-1)` and `E_FAIL`. -/
def AllocateFinish (NumItems : Nat) (s2 : RingState) : RingState × Option Nat :=
  if s2.tail + NumItems ≤ s2.head then
    ({ s2 with
        tail := s2.tail + NumItems
        ledger := Function.update s2.ledger s2.ledgerIndex
          ⟨(s2.ledger s2.ledgerIndex).fenceValue,
           (s2.ledger s2.ledgerIndex).numAllocations + NumItems⟩ },
     some (DereferenceTail s2))
  else (s2, none)

/-- Embedding of `CFencedRingBuffer::Allocate`, with a fuel argument for the
self-call that throws away the wrap padding (`Allocate(remainder, fence,
dummy)`); that inner call never recurses again, so fuel 2 realizes the C++
recursion exactly (the fuel-0 branch is unreachable from `Allocate`).
Returns the state after the call together with `some OffsetOut` for `S_OK`
and `none` for `E_FAIL`. -/
def AllocateAux : Nat → Nat → Nat → RingState → RingState × Option Nat
  | 0, _, _, s => (s, none)
  | fuel + 1, NumItems, CurrentFenceValue, s =>
    if NumItems = 0 then (s, some (DereferenceTail s)) else
    match (if (s.ledger s.ledgerIndex).fenceValue < CurrentFenceValue
           then MoveToNextLedgerEntry CurrentFenceValue s
           else (s, true)) with
    | (s1, false) => (s1, none)
    | (s1, true) =>
      if DereferenceTail s1 + NumItems > s1.size then
        match AllocateAux fuel (s1.size - DereferenceTail s1) CurrentFenceValue s1 with
        | (sp, none) => (sp, none)
        | (sp, some _) => AllocateFinish NumItems sp
      else AllocateFinish NumItems s1

/-- `CFencedRingBuffer::Allocate` (fuel 2 suffices: the padding self-call never
needs to pad again). -/
def Allocate (NumItems CurrentFenceValue : Nat) (s : RingState) : RingState × Option Nat :=
  AllocateAux 2 NumItems CurrentFenceValue s

/-- The part of `Allocate` that runs after the ledger-advance step succeeded:
wrap padding (when the request straddles the end of the buffer) followed by
the final contiguity check.  `AllocateAux (fuel+1)` with a nonzero item count
is exactly the ledger-advance step followed by this function at `fuel`. -/
def AllocatePadFinish (fuel NumItems CurrentFenceValue : Nat) (s1 : RingState) :
    RingState × Option Nat :=
  if DereferenceTail s1 + NumItems > s1.size then
    match AllocateAux fuel (s1.size - DereferenceTail s1) CurrentFenceValue s1 with
    | (sp, none) => (sp, none)
    | (sp, some _) => AllocateFinish NumItems sp
  else AllocateFinish NumItems s1

/-- One iteration of the `Deallocate` loop body for ledger slot `i`. -/
def DeallocateStep (CompletedFenceValue : Nat) (s : RingState) (i : Fin 16) : RingState :=
  if s.ledgerMask i = true ∧ (s.ledger i).fenceValue ≤ CompletedFenceValue then
    { s with
        head := s.head + (s.ledger i).numAllocations
        ledger := Function.update s.ledger i ⟨0, 0⟩
        ledgerMask := Function.update s.ledgerMask i false }
  else s

/-- The `if (m_LedgerMask == 0) break;` test. -/
def maskZero (s : RingState) : Bool := decide (∀ i, s.ledgerMask i = false)

/-- The `for (i = 0; i < _countof(m_Ledger); i++)` loop of `Deallocate`,
with the early exit when the mask becomes zero. -/
def DeallocateLoop (CompletedFenceValue : Nat) : List (Fin 16) → RingState → RingState
  | [], s => s
  | i :: rest, s =>
    if maskZero (DeallocateStep CompletedFenceValue s i) then
      DeallocateStep CompletedFenceValue s i
    else DeallocateLoop CompletedFenceValue rest (DeallocateStep CompletedFenceValue s i)

/-- Embedding of `CFencedRingBuffer::Deallocate`. -/
def Deallocate (CompletedFenceValue : Nat) (s : RingState) : RingState :=
  DeallocateLoop CompletedFenceValue (List.finRange 16) s

/-- A call against the ring buffer. -/
inductive RingOp where
  | alloc (NumItems CurrentFenceValue : Nat)
  | dealloc (CompletedFenceValue : Nat)
deriving DecidableEq

/-- The state transition of one call. -/
def ringStep (s : RingState) : RingOp → RingState
  | .alloc n f => (Allocate n f s).1
  | .dealloc c => Deallocate c s

/-- Run a sequence of calls from a freshly constructed ring buffer. -/
def ringRun (Size : Nat) (ops : List RingOp) : RingState :=
  ops.foldl ringStep (ringInit Size)

/-- Sum of `m_NumAllocations` over the slots of a ledger whose mask bit is
set. -/
def lsum (lg : Fin 16 → LedgerEntry) (mk : Fin 16 → Bool) : Nat :=
  ∑ i : Fin 16, if mk i then (lg i).numAllocations else 0

/-- Sum of `m_NumAllocations` over the ledger slots whose bit is set. -/
def ledgerSum (s : RingState) : Nat := lsum s.ledger s.ledgerMask

/-- The tail after the wrap padding that `Allocate NumItems` would perform
(identity when the request does not straddle the end of the buffer). -/
def paddedTail (s : RingState) (NumItems : Nat) : Nat :=
  if s.tail % s.size + NumItems > s.size then s.tail + (s.size - s.tail % s.size) else s.tail

/-- The ring-buffer state invariant.  `m_Head` starts at `Size`, so the
logical head of the live region is `m_Head - Size`: the claim
`0 ≤ tail - head ≤ size` about logical values is `m_Tail ≤ m_Head` and
`m_Head ≤ m_Tail + m_Size`, and the ledger accounting
`Σ live numAllocations = tail - head` is `ledgerSum + m_Head = m_Tail +
m_Size`.  The last conjunct records that a ledger slot whose mask bit is
clear is zeroed (`entry = {}`), which the transitions rely on. -/
def RingInv (s : RingState) : Prop :=
  0 < s.size ∧ s.tail ≤ s.head ∧ s.head ≤ s.tail + s.size ∧
  ledgerSum s + s.head = s.tail + s.size ∧
  ∀ i, s.ledgerMask i = false → s.ledger i = ⟨0, 0⟩

/-- The precondition the claim puts on every `Allocate` call:
`NumItems < m_Size / 2` (the source's own assert). -/
def allocReqOk (halfBound : Nat) : RingOp → Bool
  | .alloc n _ => decide (n < halfBound)
  | .dealloc _ => true

/-- The amendment's extra precondition: `Allocate` is called with a positive
fence value (fence value 0 is reserved as "never touched"). -/
def allocFencePos : RingOp → Bool
  | .alloc _ f => decide (0 < f)
  | .dealloc _ => true

/-! ## CDescriptorHeapManager

A page (`SHeapEntry`) is its free list: a list of `SFreeRange` records
`(Start, End)` of byte addresses.  The manager state holds the deque
`m_Heaps` (indexed by `HeapIndex`, append-only) and the index list
`m_FreeHeaps`.  The device is abstracted by `pageBase`, the CPU base address
`GetCPUDescriptorHandleForHeapStart` returns for the j-th heap created. -/

structure DHParams where
  DescriptorSize : Nat
  NumDescriptors : Nat
  pageBase : Nat → Nat

structure DHState where
  heaps : List (List (Nat × Nat))
  freeHeaps : List Nat
deriving DecidableEq

/-- Embedding of `CDescriptorHeapManager::AllocateHeap`: create a page whose
free list is one range spanning the whole page, append it to `m_Heaps` and
its index to `m_FreeHeaps`. -/
def AllocateHeap (P : DHParams) (s : DHState) : DHState :=
  { heaps := s.heaps ++
      [[(P.pageBase s.heaps.length,
         P.pageBase s.heaps.length + P.NumDescriptors * P.DescriptorSize)]]
    freeHeaps := s.freeHeaps ++ [s.heaps.length] }

/-- The body of `CDescriptorHeapManager::AllocateHeapSlot` after the
empty-free-list check: take the front free page, hand out the start of its
first free range, advance the range by one descriptor, and drop the range
(and, when the page becomes full, the page's index) when it empties.
Returns the new state and `some (handle, index)`; `none` stands for the
states the source guards with assertions (front index out of range or an
empty free list). -/
def AllocateHeapSlotCore (P : DHParams) (s0 : DHState) : DHState × Option (Nat × Nat) :=
  match s0.freeHeaps with
  | [] => (s0, none)
  | index :: restFH =>
    match s0.heaps.get? index with
    | none => (s0, none)
    | some [] => (s0, none)
    | some ((start, stop) :: restR) =>
      ({ heaps := s0.heaps.set index
           (if start + P.DescriptorSize = stop then restR
            else (start + P.DescriptorSize, stop) :: restR)
         freeHeaps := if (if start + P.DescriptorSize = stop then restR
             else (start + P.DescriptorSize, stop) :: restR) = [] then restFH
           else index :: restFH },
       some (start, index))

/-- Embedding of `CDescriptorHeapManager::AllocateHeapSlot`: allocate a fresh
page when no page has free slots, then take a slot from the front free page. -/
def AllocateHeapSlot (P : DHParams) (s : DHState) : DHState × Option (Nat × Nat) :=
  AllocateHeapSlotCore P (if s.freeHeaps = [] then AllocateHeap P s else s)

/-- The free-list walk of `CDescriptorHeapManager::FreeHeapSlot`: the loop over
the ordered free list with the three `bFound` branches (extend a range
leftward when its `Start` equals `Offset + DescriptorSize`, extend rightward
when its `End` equals `Offset`, or insert the new range before the first range
whose `Start` is greater).  `none` means the loop finished with `!bFound`. -/
def FreeWalk (d Offset : Nat) : List (Nat × Nat) → Option (List (Nat × Nat))
  | [] => none
  | (start, stop) :: rest =>
    if start = Offset + d then some ((Offset, stop) :: rest)
    else if stop = Offset then some ((start, Offset + d) :: rest)
    else if start > Offset then some ((Offset, Offset + d) :: (start, stop) :: rest)
    else
      match FreeWalk d Offset rest with
      | some rest1 => some ((start, stop) :: rest1)
      | none => none

/-- Embedding of `CDescriptorHeapManager::FreeHeapSlot` (the allocation-success
path of the `try` block; a `bad_alloc` leaves the free list unchanged).  When
the walk ends with `!bFound`, the new range is pushed at the back, and the page
index is re-added to `m_FreeHeaps` when its free list was empty. -/
def FreeHeapSlot (P : DHParams) (s : DHState) (Offset index : Nat) : DHState :=
  match s.heaps.get? index with
  | none => s
  | some page =>
    match FreeWalk P.DescriptorSize Offset page with
    | some page1 => { s with heaps := s.heaps.set index page1 }
    | none =>
      { heaps := s.heaps.set index (page ++ [(Offset, Offset + P.DescriptorSize)])
        freeHeaps := if page = [] then s.freeHeaps ++ [index] else s.freeHeaps }

/-- A call against the descriptor heap manager. -/
inductive HeapOp where
  | allocSlot
  | freeSlot (Offset index : Nat)
deriving DecidableEq

def heapStep (P : DHParams) (s : DHState) : HeapOp → DHState
  | .allocSlot => (AllocateHeapSlot P s).1
  | .freeSlot Offset index => FreeHeapSlot P s Offset index

/-- Run a sequence of calls from a freshly constructed manager (no pages). -/
def heapRun (P : DHParams) (ops : List HeapOp) : DHState :=
  ops.foldl (heapStep P) ⟨[], []⟩

/-- A `FreeHeapSlot(Offset, index)` call is valid when `index` is a page and
the freed descriptor `[Offset, Offset + DescriptorSize)` does not meet any
range of that page's free list.  A handle that was previously allocated from
the page and not freed since is exactly of this kind: its slot left the free
ranges at its allocation and has not rejoined them. -/
def validFreeB (P : DHParams) (s : DHState) (Offset index : Nat) : Bool :=
  match s.heaps.get? index with
  | none => false
  | some page =>
    page.all fun r => decide (r.2 ≤ Offset ∨ Offset + P.DescriptorSize ≤ r.1)

/-- Every `freeSlot` call in the sequence is valid at the state it runs in. -/
def validRunB (P : DHParams) : DHState → List HeapOp → Bool
  | _, [] => true
  | s, op :: rest =>
    (match op with
     | .allocSlot => true
     | .freeSlot Offset index => validFreeB P s Offset index) &&
    validRunB P (heapStep P s op) rest

/-- Free-list well-formedness with a lower bound `b` on the next `Start`:
every range is nonempty with a length divisible by the descriptor size, and
consecutive ranges are disjoint and in ascending order (`End ≤ next Start`;
touching ranges are allowed). -/
def pageChainB (d : Nat) : Nat → List (Nat × Nat) → Bool
  | _, [] => true
  | b, (start, stop) :: rest =>
    decide (b ≤ start) && decide (start < stop) &&
    decide ((stop - start) % d = 0) && pageChainB d stop rest

/-- The free-list invariant of a page (sorted, pairwise disjoint ranges). -/
def PageInv (d : Nat) (l : List (Nat × Nat)) : Prop := pageChainB d 0 l = true

instance pageInvDecidable (d : Nat) (l : List (Nat × Nat)) : Decidable (PageInv d l) :=
  inferInstanceAs (Decidable (pageChainB d 0 l = true))

/-- The claimed stronger invariant: consecutive free ranges never touch
(`End < next Start`). -/
def StrictNoTouch (l : List (Nat × Nat)) : Prop :=
  List.Chain' (fun a b : Nat × Nat => a.2 < b.1) l

/-! ## Deferred deletion queue: retired objects and suballocations

`COMMAND_LIST_TYPE` is an enum of the surrounding engine; its `MAX_VALID`
values are modelled as `Fin cltMax`.  A `DeferredWait` is an opaque
(fence identity, threshold) pair whose satisfaction is a caller predicate. -/

structure RetiredObjectM (cltMax : Nat) where
  lastCommandListIDs : Fin cltMax → Nat
  completionRequired : Bool
  deferredWaits : List (Nat × Nat)

/-- The `RetiredObject(CommandListType, lastCommandListID, completionRequired,
deferredWaits)` constructor: the ID array is zero except at the given type. -/
def RetiredObjectM.mkSingle (CommandListType : Fin cltMax) (lastCommandListID : Nat)
    (completionRequired : Bool) (deferredWaits : List (Nat × Nat)) :
    RetiredObjectM cltMax :=
  { lastCommandListIDs := Function.update (fun _ => 0) CommandListType lastCommandListID
    completionRequired := completionRequired
    deferredWaits := deferredWaits }

/-- The `RetiredObject(lastCommandListIDs[], completionRequired, deferredWaits)`
constructor: the whole ID array is copied. -/
def RetiredObjectM.mkAll (lastCommandListIDs : Fin cltMax → Nat)
    (completionRequired : Bool) (deferredWaits : List (Nat × Nat)) :
    RetiredObjectM cltMax :=
  { lastCommandListIDs := lastCommandListIDs
    completionRequired := completionRequired
    deferredWaits := deferredWaits }

structure RetiredSuballocationBlockM (cltMax : Nat) where
  retired : RetiredObjectM cltMax
  suballocatedBlock : Nat

/-- The `RetiredSuballocationBlock(block, parentAllocator, CommandListType,
lastCommandListID)` constructor; it hard-codes `completionRequired = true` and
passes no deferred waits. -/
def RetiredSuballocationBlockM.mkSingle (block : Nat) (CommandListType : Fin cltMax)
    (lastCommandListID : Nat) : RetiredSuballocationBlockM cltMax :=
  { retired := RetiredObjectM.mkSingle CommandListType lastCommandListID true []
    suballocatedBlock := block }

/-- The `RetiredSuballocationBlock(block, parentAllocator,
lastCommandListIDs[])` constructor; it also hard-codes
`completionRequired = true`. -/
def RetiredSuballocationBlockM.mkAll (block : Nat)
    (lastCommandListIDs : Fin cltMax → Nat) : RetiredSuballocationBlockM cltMax :=
  { retired := RetiredObjectM.mkAll lastCommandListIDs true []
    suballocatedBlock := block }

/-- Embedding of `DeferredDeletionQueueManager::AddSuballocationToQueue`
(single command-list-type overload).  `ready` abstracts
`RetiredObject::ReadyToDestroy(m_pParent)` (implemented outside this header).
Returns the suballocation queue afterwards and `some block` when the block was
destroyed immediately (returned to its parent allocator). -/
def AddSuballocationToQueue (ready : RetiredSuballocationBlockM cltMax → Bool)
    (queue : List (RetiredSuballocationBlockM cltMax)) (block : Nat)
    (CommandListType : Fin cltMax) (lastCommandListID : Nat) :
    List (RetiredSuballocationBlockM cltMax) × Option Nat :=
  let r := RetiredSuballocationBlockM.mkSingle block CommandListType lastCommandListID
  if ready r = false then (queue ++ [r], none)
  else (queue, some r.suballocatedBlock)

/-- Modelled from the spec: `RetiredObject::ReadyToDestroy` is only declared in
the header under verification; its body lives in a source file outside this
repository snapshot.  Following §4.6 of the spec: for each command-list type
with a positive recorded last-touched ID, the completed fence of that type
must have reached the ID — unless `completionRequired` is false and the device
is being torn down, in which case the check for that type is waived — and
every deferred wait must be satisfied. -/
def readyToDestroySpec (completedFence : Fin cltMax → Nat) (deviceBeingDestroyed : Bool)
    (waitSatisfied : Nat × Nat → Bool) (r : RetiredObjectM cltMax) : Bool :=
  (decide (∀ t, 0 < r.lastCommandListIDs t →
      (r.lastCommandListIDs t ≤ completedFence t ∨
       (r.completionRequired = false ∧ deviceBeingDestroyed = true)))) &&
  r.deferredWaits.all waitSatisfied

/-! ## Ledger sum bookkeeping -/

theorem sum16_update (F : Fin 16 → Nat) (j : Fin 16) (v w : Nat) (hF : F j = w) :
    (∑ i : Fin 16, Function.update F j v i) + w = (∑ i : Fin 16, F i) + v := by
  rw [Finset.sum_update_of_mem (Finset.mem_univ j)]
  have h2 := Finset.add_sum_erase Finset.univ F (Finset.mem_univ j)
  rw [Finset.erase_eq, hF] at h2
  omega

theorem lsum_bump (lg : Fin 16 → LedgerEntry) (mk : Fin 16 → Bool) (j : Fin 16)
    (e : LedgerEntry) (v : Nat) (hj : mk j = true)
    (he : e.numAllocations = (lg j).numAllocations + v) :
    lsum (Function.update lg j e) mk = lsum lg mk + v := by
  have hGj : (if mk j = true then (Function.update lg j e j).numAllocations else 0) =
      (if mk j = true then (lg j).numAllocations else 0) + v := by
    rw [Function.update_same, hj]
    simp [he]
  have hsplitG := Finset.add_sum_erase Finset.univ
    (fun i => if mk i = true then (Function.update lg j e i).numAllocations else 0)
    (Finset.mem_univ j)
  have hsplitF := Finset.add_sum_erase Finset.univ
    (fun i => if mk i = true then (lg i).numAllocations else 0)
    (Finset.mem_univ j)
  have hcong : (∑ i in Finset.univ.erase j,
        if mk i = true then (Function.update lg j e i).numAllocations else 0) =
      ∑ i in Finset.univ.erase j, if mk i = true then (lg i).numAllocations else 0 :=
    Finset.sum_congr rfl fun i hi => by
      rw [Function.update_noteq (Finset.ne_of_mem_erase hi)]
  unfold lsum
  dsimp only at hsplitG hsplitF
  omega

theorem lsum_fresh (lg : Fin 16 → LedgerEntry) (mk : Fin 16 → Bool) (j : Fin 16)
    (fv : Nat) (hj : mk j = false) :
    lsum (Function.update lg j ⟨fv, 0⟩) (Function.update mk j true) = lsum lg mk := by
  have hGj : (if Function.update mk j true j = true then
      (Function.update lg j ⟨fv, 0⟩ j).numAllocations else 0) = 0 := by
    rw [Function.update_same, Function.update_same]
    simp
  have hFj : (if mk j = true then (lg j).numAllocations else 0) = 0 := by
    rw [hj]
    simp
  have hsplitG := Finset.add_sum_erase Finset.univ
    (fun i => if Function.update mk j true i = true then
      (Function.update lg j ⟨fv, 0⟩ i).numAllocations else 0)
    (Finset.mem_univ j)
  have hsplitF := Finset.add_sum_erase Finset.univ
    (fun i => if mk i = true then (lg i).numAllocations else 0)
    (Finset.mem_univ j)
  have hcong : (∑ i in Finset.univ.erase j,
        if Function.update mk j true i = true then
          (Function.update lg j ⟨fv, 0⟩ i).numAllocations else 0) =
      ∑ i in Finset.univ.erase j, if mk i = true then (lg i).numAllocations else 0 :=
    Finset.sum_congr rfl fun i hi => by
      rw [Function.update_noteq (Finset.ne_of_mem_erase hi),
        Function.update_noteq (Finset.ne_of_mem_erase hi)]
  unfold lsum
  dsimp only at hsplitG hsplitF
  omega

theorem lsum_clear (lg : Fin 16 → LedgerEntry) (mk : Fin 16 → Bool) (j : Fin 16)
    (hj : mk j = true) :
    lsum (Function.update lg j ⟨0, 0⟩) (Function.update mk j false) +
      (lg j).numAllocations = lsum lg mk := by
  have hGj : (if Function.update mk j false j = true then
      (Function.update lg j ⟨0, 0⟩ j).numAllocations else 0) = 0 := by
    rw [Function.update_same]
    simp
  have hFj : (if mk j = true then (lg j).numAllocations else 0) =
      (lg j).numAllocations := by
    rw [hj]
    simp
  have hsplitG := Finset.add_sum_erase Finset.univ
    (fun i => if Function.update mk j false i = true then
      (Function.update lg j ⟨0, 0⟩ i).numAllocations else 0)
    (Finset.mem_univ j)
  have hsplitF := Finset.add_sum_erase Finset.univ
    (fun i => if mk i = true then (lg i).numAllocations else 0)
    (Finset.mem_univ j)
  have hcong : (∑ i in Finset.univ.erase j,
        if Function.update mk j false i = true then
          (Function.update lg j ⟨0, 0⟩ i).numAllocations else 0) =
      ∑ i in Finset.univ.erase j, if mk i = true then (lg i).numAllocations else 0 :=
    Finset.sum_congr rfl fun i hi => by
      rw [Function.update_noteq (Finset.ne_of_mem_erase hi),
        Function.update_noteq (Finset.ne_of_mem_erase hi)]
  unfold lsum
  dsimp only at hsplitG hsplitF
  omega

theorem lsum_le (lg : Fin 16 → LedgerEntry) (mk : Fin 16 → Bool) (j : Fin 16)
    (hj : mk j = true) : (lg j).numAllocations ≤ lsum lg mk := by
  have key := lsum_clear lg mk j hj
  omega

/-! ## Ring-buffer invariant preservation -/

theorem moveToNext_inv (f : Nat) (s : RingState) (h : RingInv s) :
    RingInv (MoveToNextLedgerEntry f s).1 := by
  obtain ⟨h1, h2, h3, h4, h5⟩ := h
  unfold MoveToNextLedgerEntry RingInv
  by_cases hav : s.ledgerMask (s.ledgerIndex + 1) = false
  · rw [if_pos hav]
    dsimp only
    refine ⟨h1, h2, h3, ?_, ?_⟩
    · unfold ledgerSum
      dsimp only
      rw [lsum_fresh s.ledger s.ledgerMask _ f hav]
      exact h4
    · intro i hi
      by_cases hij : i = s.ledgerIndex + 1
      · rw [hij, Function.update_same] at hi
        cases hi
      · rw [Function.update_noteq hij] at hi
        rw [Function.update_noteq hij]
        exact h5 i hi
  · rw [if_neg hav]
    exact ⟨h1, h2, h3, h4, h5⟩

theorem moveToNext_live (f : Nat) (s : RingState)
    (h : (MoveToNextLedgerEntry f s).2 = true) :
    (MoveToNextLedgerEntry f s).1.ledgerMask
      (MoveToNextLedgerEntry f s).1.ledgerIndex = true := by
  unfold MoveToNextLedgerEntry at h ⊢
  by_cases hav : s.ledgerMask (s.ledgerIndex + 1) = false
  · rw [if_pos hav]
    dsimp only
    rw [Function.update_same]
  · rw [if_neg hav] at h
    cases h

theorem moveToNext_fields (f : Nat) (s : RingState) :
    (MoveToNextLedgerEntry f s).1.head = s.head ∧
    (MoveToNextLedgerEntry f s).1.tail = s.tail ∧
    (MoveToNextLedgerEntry f s).1.size = s.size := by
  unfold MoveToNextLedgerEntry
  by_cases hav : s.ledgerMask (s.ledgerIndex + 1) = false
  · rw [if_pos hav]
    exact ⟨rfl, rfl, rfl⟩
  · rw [if_neg hav]
    exact ⟨rfl, rfl, rfl⟩

theorem allocateFinish_inv (n : Nat) (s2 : RingState) (h : RingInv s2)
    (hlive : s2.ledgerMask s2.ledgerIndex = true) :
    RingInv (AllocateFinish n s2).1 ∧
    (AllocateFinish n s2).1.ledgerMask (AllocateFinish n s2).1.ledgerIndex = true ∧
    (AllocateFinish n s2).1.size = s2.size := by
  obtain ⟨h1, h2, h3, h4, h5⟩ := h
  unfold AllocateFinish RingInv
  by_cases hc : s2.tail + n ≤ s2.head
  · rw [if_pos hc]
    dsimp only
    refine ⟨⟨h1, hc, by omega, ?_, ?_⟩, hlive, rfl⟩
    · unfold ledgerSum
      dsimp only
      rw [lsum_bump s2.ledger s2.ledgerMask s2.ledgerIndex _ n hlive rfl]
      unfold ledgerSum at h4
      omega
    · intro i hi
      have hne : i ≠ s2.ledgerIndex := fun heq => by rw [heq, hlive] at hi; cases hi
      rw [Function.update_noteq hne]
      exact h5 i hi
  · rw [if_neg hc]
    exact ⟨⟨h1, h2, h3, h4, h5⟩, hlive, rfl⟩

theorem allocateAux_succ (fuel NumItems CurrentFenceValue : Nat) (s : RingState)
    (hn : NumItems ≠ 0) :
    AllocateAux (fuel + 1) NumItems CurrentFenceValue s =
      if (s.ledger s.ledgerIndex).fenceValue < CurrentFenceValue then
        match MoveToNextLedgerEntry CurrentFenceValue s with
        | (s1, false) => (s1, none)
        | (s1, true) => AllocatePadFinish fuel NumItems CurrentFenceValue s1
      else AllocatePadFinish fuel NumItems CurrentFenceValue s := by
  simp only [AllocateAux, if_neg hn]
  by_cases hfc : (s.ledger s.ledgerIndex).fenceValue < CurrentFenceValue
  · rw [if_pos hfc, if_pos hfc]
    rcases MoveToNextLedgerEntry CurrentFenceValue s with ⟨s1, _ | _⟩ <;> rfl
  · rw [if_neg hfc, if_neg hfc]
    rfl

theorem allocateAux_inv (fuel : Nat) :
    ∀ (NumItems CurrentFenceValue : Nat) (s : RingState), RingInv s →
      0 < CurrentFenceValue →
      RingInv (AllocateAux fuel NumItems CurrentFenceValue s).1 ∧
      (AllocateAux fuel NumItems CurrentFenceValue s).1.size = s.size ∧
      (0 < NumItems → (AllocateAux fuel NumItems CurrentFenceValue s).2 ≠ none →
        (AllocateAux fuel NumItems CurrentFenceValue s).1.ledgerMask
          (AllocateAux fuel NumItems CurrentFenceValue s).1.ledgerIndex = true) := by
  induction fuel with
  | zero =>
    intro n f s hs _
    exact ⟨hs, rfl, fun _ hne => absurd rfl hne⟩
  | succ fuel ih =>
    intro n f s hs hf
    by_cases hn : n = 0
    · subst hn
      have h00 : AllocateAux (fuel + 1) 0 f s = (s, some (DereferenceTail s)) := by
        simp [AllocateAux]
      rw [h00]
      exact ⟨hs, rfl, fun h0 _ => absurd h0 (by omega)⟩
    · have hcore : ∀ s1 : RingState, RingInv s1 →
          s1.ledgerMask s1.ledgerIndex = true →
          RingInv (AllocatePadFinish fuel n f s1).1 ∧
          (AllocatePadFinish fuel n f s1).1.size = s1.size ∧
          ((AllocatePadFinish fuel n f s1).2 ≠ none →
            (AllocatePadFinish fuel n f s1).1.ledgerMask
              (AllocatePadFinish fuel n f s1).1.ledgerIndex = true) := by
        intro s1 hs1 hlive1
        unfold AllocatePadFinish
        by_cases hwrap : DereferenceTail s1 + n > s1.size
        · rw [if_pos hwrap]
          obtain ⟨hi1, hi2, hi3⟩ := ih (s1.size - DereferenceTail s1) f s1 hs1 hf
          rcases hpad : AllocateAux fuel (s1.size - DereferenceTail s1) f s1 with ⟨sp, r⟩
          rw [hpad] at hi1 hi2 hi3
          cases r with
          | none =>
            exact ⟨hi1, hi2, fun hne => absurd rfl hne⟩
          | some off =>
            have hrem : 0 < s1.size - DereferenceTail s1 := by
              have hlt : DereferenceTail s1 < s1.size := Nat.mod_lt _ hs1.1
              omega
            have hlivep := hi3 hrem (by simp)
            obtain ⟨hf1, hf2, hf3⟩ := allocateFinish_inv n sp hi1 hlivep
            exact ⟨hf1, by rw [hf3, hi2], fun _ => hf2⟩
        · rw [if_neg hwrap]
          obtain ⟨hf1, hf2, hf3⟩ := allocateFinish_inv n s1 hs1 hlive1
          exact ⟨hf1, hf3, fun _ => hf2⟩
      rw [allocateAux_succ fuel n f s hn]
      by_cases hfc : (s.ledger s.ledgerIndex).fenceValue < f
      · rw [if_pos hfc]
        rcases hmv : MoveToNextLedgerEntry f s with ⟨s1, b⟩
        have hinv1 : RingInv s1 := by
          have hh := moveToNext_inv f s hs
          rw [hmv] at hh
          exact hh
        have hfields := moveToNext_fields f s
        rw [hmv] at hfields
        cases b with
        | false =>
          exact ⟨hinv1, hfields.2.2, fun _ hne => absurd rfl hne⟩
        | true =>
          have hlive1 : s1.ledgerMask s1.ledgerIndex = true := by
            have hh := moveToNext_live f s (by rw [hmv])
            rw [hmv] at hh
            exact hh
          obtain ⟨hc1, hc2, hc3⟩ := hcore s1 hinv1 hlive1
          exact ⟨hc1, by rw [hc2, hfields.2.2], fun _ => hc3⟩
      · rw [if_neg hfc]
        have hlive : s.ledgerMask s.ledgerIndex = true := by
          cases hmk : s.ledgerMask s.ledgerIndex with
          | false =>
            have hzero := hs.2.2.2.2 s.ledgerIndex hmk
            rw [hzero] at hfc
            exact absurd hf hfc
          | true => rfl
        obtain ⟨hc1, hc2, hc3⟩ := hcore s hs hlive
        exact ⟨hc1, hc2, fun _ => hc3⟩

theorem deallocStep_inv (c : Nat) (s : RingState) (i : Fin 16) (h : RingInv s) :
    RingInv (DeallocateStep c s i) ∧ (DeallocateStep c s i).size = s.size := by
  obtain ⟨h1, h2, h3, h4, h5⟩ := h
  unfold DeallocateStep RingInv
  by_cases hcond : s.ledgerMask i = true ∧ (s.ledger i).fenceValue ≤ c
  · rw [if_pos hcond]
    have hle := lsum_le s.ledger s.ledgerMask i hcond.1
    have hclear := lsum_clear s.ledger s.ledgerMask i hcond.1
    unfold ledgerSum at h4
    dsimp only
    refine ⟨⟨h1, by omega, by omega, ?_, ?_⟩, rfl⟩
    · unfold ledgerSum
      dsimp only
      omega
    · intro k hk
      by_cases hki : k = i
      · subst hki
        rw [Function.update_same]
      · rw [Function.update_noteq hki] at hk
        rw [Function.update_noteq hki]
        exact h5 k hk
  · rw [if_neg hcond]
    exact ⟨⟨h1, h2, h3, h4, h5⟩, rfl⟩

theorem deallocLoop_inv (c : Nat) (l : List (Fin 16)) : ∀ s : RingState, RingInv s →
    RingInv (DeallocateLoop c l s) ∧ (DeallocateLoop c l s).size = s.size := by
  induction l with
  | nil =>
    intro s h
    exact ⟨h, rfl⟩
  | cons i rest ih =>
    intro s h
    obtain ⟨hs1, hsize⟩ := deallocStep_inv c s i h
    unfold DeallocateLoop
    by_cases hz : maskZero (DeallocateStep c s i) = true
    · rw [if_pos hz]
      exact ⟨hs1, hsize⟩
    · rw [if_neg hz]
      obtain ⟨hr1, hrsize⟩ := ih (DeallocateStep c s i) hs1
      exact ⟨hr1, by rw [hrsize, hsize]⟩

theorem ringInit_inv (Size : Nat) (h : 0 < Size) : RingInv (ringInit Size) := by
  unfold RingInv
  refine ⟨by simpa [ringInit] using h, by simp [ringInit], by simp [ringInit], ?_,
    fun i _ => rfl⟩
  simp [ringInit, ledgerSum, lsum]

theorem ringStep_inv (s : RingState) (op : RingOp) (h : RingInv s)
    (hpos : allocFencePos op = true) :
    RingInv (ringStep s op) ∧ (ringStep s op).size = s.size := by
  cases op with
  | alloc n f =>
    have hf : 0 < f := by simpa [allocFencePos] using hpos
    obtain ⟨ha, hb, _⟩ := allocateAux_inv 2 n f s h hf
    exact ⟨ha, hb⟩
  | dealloc c =>
    exact deallocLoop_inv c (List.finRange 16) s h

theorem ringFold_inv (ops : List RingOp) : ∀ s : RingState, RingInv s →
    (∀ op ∈ ops, allocFencePos op = true) →
    RingInv (ops.foldl ringStep s) ∧ (ops.foldl ringStep s).size = s.size := by
  induction ops with
  | nil =>
    intro s h _
    exact ⟨h, rfl⟩
  | cons op rest ih =>
    intro s h hpos
    have hstep := ringStep_inv s op h (hpos op (List.mem_cons_self op rest))
    have hrest := ih (ringStep s op) hstep.1
      (fun o ho => hpos o (List.mem_cons_of_mem op ho))
    simp only [List.foldl_cons]
    exact ⟨hrest.1, by rw [hrest.2, hstep.2]⟩

theorem allocateFinish_cases (n : Nat) (s : RingState) :
    (s.head < s.tail + n ∧ AllocateFinish n s = (s, none)) ∨
    (s.tail + n ≤ s.head ∧ AllocateFinish n s =
      ({ s with
          tail := s.tail + n
          ledger := Function.update s.ledger s.ledgerIndex
            ⟨(s.ledger s.ledgerIndex).fenceValue,
             (s.ledger s.ledgerIndex).numAllocations + n⟩ },
       some (DereferenceTail s))) := by
  unfold AllocateFinish
  by_cases hc : s.tail + n ≤ s.head
  · exact Or.inr ⟨hc, by rw [if_pos hc]⟩
  · exact Or.inl ⟨by omega, by rw [if_neg hc]⟩

theorem pad_call_eval (fuel CurrentFenceValue : Nat) (s1 : RingState)
    (hs : 0 < s1.size)
    (hfc : ¬ (s1.ledger s1.ledgerIndex).fenceValue < CurrentFenceValue) :
    AllocateAux (fuel + 1) (s1.size - DereferenceTail s1) CurrentFenceValue s1 =
      AllocateFinish (s1.size - DereferenceTail s1) s1 := by
  have hmod : s1.tail % s1.size < s1.size := Nat.mod_lt _ hs
  have hrem : s1.size - DereferenceTail s1 ≠ 0 := by
    unfold DereferenceTail
    omega
  rw [allocateAux_succ _ _ _ _ hrem, if_neg hfc]
  unfold AllocatePadFinish
  rw [if_neg (by unfold DereferenceTail; omega)]

theorem padFinish_none_iff (fuel NumItems CurrentFenceValue : Nat) (s1 : RingState)
    (hs : 0 < s1.size) (hn : 0 < NumItems)
    (hfc : ¬ (s1.ledger s1.ledgerIndex).fenceValue < CurrentFenceValue) :
    ((AllocatePadFinish (fuel + 1) NumItems CurrentFenceValue s1).2 = none ↔
      s1.head < paddedTail s1 NumItems + NumItems) := by
  have hmod : s1.tail % s1.size < s1.size := Nat.mod_lt _ hs
  unfold AllocatePadFinish
  by_cases hwrap : DereferenceTail s1 + NumItems > s1.size
  · have hpt : paddedTail s1 NumItems = s1.tail + (s1.size - s1.tail % s1.size) := by
      unfold paddedTail
      rw [if_pos (by unfold DereferenceTail at hwrap; omega)]
    rw [if_pos hwrap, pad_call_eval fuel CurrentFenceValue s1 hs hfc]
    rcases allocateFinish_cases (s1.size - DereferenceTail s1) s1 with ⟨hc, heq⟩ | ⟨hc, heq⟩
    · rw [heq]
      unfold DereferenceTail at hc
      constructor
      · intro _
        omega
      · intro _
        rfl
    · rw [heq]
      dsimp only
      rcases allocateFinish_cases NumItems _ with ⟨hc2, heq2⟩ | ⟨hc2, heq2⟩
      · rw [heq2]
        dsimp only at hc2
        unfold DereferenceTail at hc2
        constructor
        · intro _
          omega
        · intro _
          rfl
      · rw [heq2]
        dsimp only at hc2
        unfold DereferenceTail at hc2
        constructor
        · intro hx
          exact absurd hx (by simp)
        · intro hx
          exact absurd hx (by omega)
  · have hpt : paddedTail s1 NumItems = s1.tail := by
      unfold paddedTail
      rw [if_neg (by unfold DereferenceTail at hwrap; omega)]
    rw [if_neg hwrap]
    rcases allocateFinish_cases NumItems s1 with ⟨hc, heq⟩ | ⟨hc, heq⟩
    · rw [heq]
      constructor
      · intro _
        omega
      · intro _
        rfl
    · rw [heq]
      constructor
      · intro hx
        exact absurd hx (by simp)
      · intro hx
        exact absurd hx (by omega)

theorem padFinish_offset (fuel NumItems CurrentFenceValue : Nat) (s1 : RingState)
    (hs : 0 < s1.size) (hn : 0 < NumItems)
    (hfc : ¬ (s1.ledger s1.ledgerIndex).fenceValue < CurrentFenceValue) (off : Nat)
    (hsucc : (AllocatePadFinish (fuel + 1) NumItems CurrentFenceValue s1).2 = some off) :
    off = paddedTail s1 NumItems % s1.size ∧
    ((AllocatePadFinish (fuel + 1) NumItems CurrentFenceValue s1).1.ledger
        s1.ledgerIndex).numAllocations =
      (s1.ledger s1.ledgerIndex).numAllocations +
        (paddedTail s1 NumItems - s1.tail) + NumItems := by
  have hmod : s1.tail % s1.size < s1.size := Nat.mod_lt _ hs
  unfold AllocatePadFinish at hsucc ⊢
  by_cases hwrap : DereferenceTail s1 + NumItems > s1.size
  · have hpt : paddedTail s1 NumItems = s1.tail + (s1.size - s1.tail % s1.size) := by
      unfold paddedTail
      rw [if_pos (by unfold DereferenceTail at hwrap; omega)]
    rw [if_pos hwrap, pad_call_eval fuel CurrentFenceValue s1 hs hfc] at hsucc ⊢
    rcases allocateFinish_cases (s1.size - DereferenceTail s1) s1 with ⟨hc, heq⟩ | ⟨hc, heq⟩
    · rw [heq] at hsucc
      cases hsucc
    · rw [heq] at hsucc ⊢
      dsimp only at hsucc ⊢
      rcases allocateFinish_cases NumItems _ with ⟨hc2, heq2⟩ | ⟨hc2, heq2⟩
      · rw [heq2] at hsucc
        cases hsucc
      · rw [heq2] at hsucc ⊢
        dsimp only at hsucc ⊢
        refine ⟨?_, ?_⟩
        · cases hsucc
          unfold DereferenceTail
          dsimp only
          rw [hpt]
        · rw [Function.update_same, Function.update_same]
          dsimp only
          unfold DereferenceTail at hwrap ⊢
          omega
  · have hpt : paddedTail s1 NumItems = s1.tail := by
      unfold paddedTail
      rw [if_neg (by unfold DereferenceTail at hwrap; omega)]
    rw [if_neg hwrap] at hsucc ⊢
    rcases allocateFinish_cases NumItems s1 with ⟨hc, heq⟩ | ⟨hc, heq⟩
    · rw [heq] at hsucc
      cases hsucc
    · rw [heq] at hsucc ⊢
      dsimp only at hsucc ⊢
      refine ⟨?_, ?_⟩
      · cases hsucc
        unfold DereferenceTail
        rw [hpt]
      · rw [Function.update_same]
        dsimp only
        omega

theorem padded_mod_zero (t sz : Nat) (h : 0 < sz) : (t + (sz - t % sz)) % sz = 0 := by
  have hd := Nat.div_add_mod t sz
  have hm : t % sz < sz := Nat.mod_lt _ h
  have he : t + (sz - t % sz) = sz * (t / sz + 1) := by
    rw [Nat.mul_add, Nat.mul_one]
    omega
  rw [he, Nat.mul_comm, Nat.mul_mod_left]

/-! ## Descriptor-heap free-list invariant preservation -/

theorem chainB_weaken (d : Nat) :
    ∀ (l : List (Nat × Nat)) (b b2 : Nat), b2 ≤ b →
      pageChainB d b l = true → pageChainB d b2 l = true
  | [], _, _, _, _ => rfl
  | (start, stop) :: rest, b, b2, hle, h => by
    simp only [pageChainB, Bool.and_eq_true, decide_eq_true_eq] at h ⊢
    exact ⟨⟨⟨by omega, h.1.1.2⟩, h.1.2⟩, h.2⟩

theorem freeWalk_chain (d Offset : Nat) (hd : 0 < d) :
    ∀ (l : List (Nat × Nat)), ∀ (b : Nat) (l2 : List (Nat × Nat)), b ≤ Offset →
      pageChainB d b l = true →
      (∀ r ∈ l, r.2 ≤ Offset ∨ Offset + d ≤ r.1) →
      FreeWalk d Offset l = some l2 →
      pageChainB d b l2 = true := by
  intro l
  induction l with
  | nil =>
    intro b l2 _ _ _ hw
    cases hw
  | cons head rest ih =>
    rcases head with ⟨start, stop⟩
    intro b l2 hb hchain hdisj hw
    obtain ⟨⟨⟨hbs, hss⟩, hdvd⟩, hrest⟩ := by
      simpa only [pageChainB, Bool.and_eq_true, decide_eq_true_eq] using hchain
    have hdisj0 : stop ≤ Offset ∨ Offset + d ≤ start := by
      simpa using hdisj (start, stop) (List.mem_cons_self _ _)
    have hdisjrest : ∀ r ∈ rest, r.2 ≤ Offset ∨ Offset + d ≤ r.1 :=
      fun r hr => hdisj r (List.mem_cons_of_mem _ hr)
    unfold FreeWalk at hw
    by_cases h1 : start = Offset + d
    · rw [if_pos h1] at hw
      cases hw
      simp only [pageChainB, Bool.and_eq_true, decide_eq_true_eq]
      refine ⟨⟨⟨hb, by omega⟩, ?_⟩, hrest⟩
      have hdv : d ∣ (stop - start) := Nat.dvd_of_mod_eq_zero hdvd
      have heq : stop - Offset = (stop - start) + d := by omega
      rw [heq]
      exact Nat.mod_eq_zero_of_dvd (Nat.dvd_add hdv (dvd_refl d))
    by_cases h2 : stop = Offset
    · rw [if_neg h1, if_pos h2] at hw
      cases hw
      subst h2
      simp only [pageChainB, Bool.and_eq_true, decide_eq_true_eq]
      refine ⟨⟨⟨hbs, by omega⟩, ?_⟩, ?_⟩
      · have hdv : d ∣ (stop - start) := Nat.dvd_of_mod_eq_zero hdvd
        have heq : stop + d - start = (stop - start) + d := by omega
        rw [heq]
        exact Nat.mod_eq_zero_of_dvd (Nat.dvd_add hdv (dvd_refl d))
      · cases rest with
        | nil => rfl
        | cons head2 rest2 =>
          rcases head2 with ⟨s2, e2⟩
          obtain ⟨⟨⟨hos2, hs2e2⟩, hdvd2⟩, hrest2⟩ := by
            simpa only [pageChainB, Bool.and_eq_true, decide_eq_true_eq] using hrest
          have hd2 : e2 ≤ stop ∨ stop + d ≤ s2 := by
            simpa using hdisjrest (s2, e2) (List.mem_cons_self _ _)
          simp only [pageChainB, Bool.and_eq_true, decide_eq_true_eq]
          exact ⟨⟨⟨by omega, hs2e2⟩, hdvd2⟩, hrest2⟩
    by_cases h3 : start > Offset
    · rw [if_neg h1, if_neg h2, if_pos h3] at hw
      cases hw
      simp only [pageChainB, Bool.and_eq_true, decide_eq_true_eq]
      have hstart : Offset + d ≤ start := by
        rcases hdisj0 with hA | hA
        · omega
        · exact hA
      refine ⟨⟨⟨hb, by omega⟩, ?_⟩, ⟨⟨⟨hstart, hss⟩, hdvd⟩, hrest⟩⟩
      have heq : Offset + d - Offset = d := by omega
      rw [heq]
      exact Nat.mod_self d
    rw [if_neg h1, if_neg h2, if_neg h3] at hw
    have hso : stop < Offset := by
      rcases hdisj0 with hA | hA
      · omega
      · omega
    rcases hrw : FreeWalk d Offset rest with _ | rest1
    · rw [hrw] at hw
      cases hw
    · rw [hrw] at hw
      cases hw
      have hchain1 := ih stop rest1 (by omega) hrest hdisjrest hrw
      simp only [pageChainB, Bool.and_eq_true, decide_eq_true_eq]
      exact ⟨⟨⟨hbs, hss⟩, hdvd⟩, hchain1⟩

theorem freeWalk_none_chain (d Offset : Nat) (hd : 0 < d) :
    ∀ (l : List (Nat × Nat)), ∀ b : Nat, b ≤ Offset →
      pageChainB d b l = true →
      (∀ r ∈ l, r.2 ≤ Offset ∨ Offset + d ≤ r.1) →
      FreeWalk d Offset l = none →
      pageChainB d b (l ++ [(Offset, Offset + d)]) = true := by
  intro l
  induction l with
  | nil =>
    intro b hb _ _ _
    simp only [List.nil_append, pageChainB, Bool.and_eq_true, decide_eq_true_eq]
    refine ⟨⟨⟨hb, by omega⟩, ?_⟩, trivial⟩
    have heq : Offset + d - Offset = d := by omega
    rw [heq]
    exact Nat.mod_self d
  | cons head rest ih =>
    rcases head with ⟨start, stop⟩
    intro b hb hchain hdisj hw
    obtain ⟨⟨⟨hbs, hss⟩, hdvd⟩, hrest⟩ := by
      simpa only [pageChainB, Bool.and_eq_true, decide_eq_true_eq] using hchain
    have hdisj0 : stop ≤ Offset ∨ Offset + d ≤ start := by
      simpa using hdisj (start, stop) (List.mem_cons_self _ _)
    unfold FreeWalk at hw
    by_cases h1 : start = Offset + d
    · rw [if_pos h1] at hw
      cases hw
    by_cases h2 : stop = Offset
    · rw [if_neg h1, if_pos h2] at hw
      cases hw
    by_cases h3 : start > Offset
    · rw [if_neg h1, if_neg h2, if_pos h3] at hw
      cases hw
    rw [if_neg h1, if_neg h2, if_neg h3] at hw
    have hso : stop ≤ Offset := by
      rcases hdisj0 with hA | hA
      · exact hA
      · omega
    rcases hrw : FreeWalk d Offset rest with _ | rest1
    · have hind := ih stop hso hrest
        (fun r hr => hdisj r (List.mem_cons_of_mem _ hr)) hrw
      simp only [List.cons_append, pageChainB, Bool.and_eq_true, decide_eq_true_eq]
      exact ⟨⟨⟨hbs, hss⟩, hdvd⟩, hind⟩
    · rw [hrw] at hw
      cases hw

theorem pageInv_whole (d b N : Nat) (hd : 0 < d) (hN : 0 < N) :
    PageInv d [(b, b + N * d)] := by
  unfold PageInv
  simp only [pageChainB, Bool.and_eq_true, decide_eq_true_eq]
  refine ⟨⟨⟨Nat.zero_le _, ?_⟩, ?_⟩, trivial⟩
  · have hpos : 0 < N * d := Nat.mul_pos hN hd
    omega
  · have heq : b + N * d - b = N * d := by omega
    rw [heq]
    exact Nat.mul_mod_left N d

theorem allocSlotCore_pages (P : DHParams) (s0 : DHState) (hd : 0 < P.DescriptorSize)
    (hall : ∀ l ∈ s0.heaps, PageInv P.DescriptorSize l) :
    ∀ l ∈ (AllocateHeapSlotCore P s0).1.heaps, PageInv P.DescriptorSize l := by
  unfold AllocateHeapSlotCore
  split
  · exact hall
  next index restFH hfh =>
  split
  · exact hall
  · exact hall
  next start stop restR hpg =>
  intro l hl
  rcases List.mem_or_eq_of_mem_set hl with hA | rfl
  · exact hall l hA
  · have hpinv := hall _ (List.get?_mem hpg)
    obtain ⟨⟨⟨_, hss⟩, hdvd⟩, hrest⟩ := by
      simpa only [PageInv, pageChainB, Bool.and_eq_true, decide_eq_true_eq] using hpinv
    by_cases hpop : start + P.DescriptorSize = stop
    · rw [if_pos hpop]
      exact chainB_weaken _ restR stop 0 (Nat.zero_le _) hrest
    · rw [if_neg hpop]
      simp only [PageInv, pageChainB, Bool.and_eq_true, decide_eq_true_eq]
      have hdv : P.DescriptorSize ∣ (stop - start) := Nat.dvd_of_mod_eq_zero hdvd
      have hge : P.DescriptorSize ≤ stop - start := Nat.le_of_dvd (by omega) hdv
      refine ⟨⟨⟨Nat.zero_le _, by omega⟩, ?_⟩, hrest⟩
      have heq : stop - (start + P.DescriptorSize) =
          (stop - start) - P.DescriptorSize := by omega
      rw [heq]
      exact Nat.mod_eq_zero_of_dvd (Nat.dvd_sub' hdv (dvd_refl _))

theorem allocSlot_pages (P : DHParams) (s : DHState) (hd : 0 < P.DescriptorSize)
    (hN : 0 < P.NumDescriptors)
    (hall : ∀ l ∈ s.heaps, PageInv P.DescriptorSize l) :
    ∀ l ∈ (AllocateHeapSlot P s).1.heaps, PageInv P.DescriptorSize l := by
  unfold AllocateHeapSlot
  refine allocSlotCore_pages P _ hd ?_
  by_cases hfe : s.freeHeaps = []
  · rw [if_pos hfe]
    unfold AllocateHeap
    intro l hl
    dsimp only at hl
    rcases List.mem_append.mp hl with hA | hA
    · exact hall l hA
    · rw [List.mem_singleton.mp hA]
      exact pageInv_whole P.DescriptorSize _ P.NumDescriptors hd hN
  · rw [if_neg hfe]
    exact hall

theorem freeSlot_pages (P : DHParams) (s : DHState) (Offset index : Nat)
    (hd : 0 < P.DescriptorSize)
    (hvalid : validFreeB P s Offset index = true)
    (hall : ∀ l ∈ s.heaps, PageInv P.DescriptorSize l) :
    ∀ l ∈ (FreeHeapSlot P s Offset index).heaps, PageInv P.DescriptorSize l := by
  unfold FreeHeapSlot
  unfold validFreeB at hvalid
  split
  · exact hall
  next page hpg =>
  simp only [hpg] at hvalid
  have hdisj : ∀ r ∈ page, r.2 ≤ Offset ∨ Offset + P.DescriptorSize ≤ r.1 := by
    intro r hr
    simpa using (List.all_eq_true.mp hvalid) r hr
  have hpinv : PageInv P.DescriptorSize page := hall page (List.get?_mem hpg)
  split
  · rename_i page1 hrw
    intro l hl
    rcases List.mem_or_eq_of_mem_set hl with hA | hEq
    · exact hall l hA
    · rw [hEq]
      exact freeWalk_chain P.DescriptorSize Offset hd page 0 page1 (Nat.zero_le _)
        hpinv hdisj hrw
  · rename_i hrw
    intro l hl
    rcases List.mem_or_eq_of_mem_set hl with hA | hEq
    · exact hall l hA
    · rw [hEq]
      exact freeWalk_none_chain P.DescriptorSize Offset hd page 0 (Nat.zero_le _)
        hpinv hdisj hrw

theorem heapFold_pages (P : DHParams) (hd : 0 < P.DescriptorSize)
    (hN : 0 < P.NumDescriptors) (ops : List HeapOp) :
    ∀ s : DHState, (∀ l ∈ s.heaps, PageInv P.DescriptorSize l) →
      validRunB P s ops = true →
      ∀ l ∈ (ops.foldl (heapStep P) s).heaps, PageInv P.DescriptorSize l := by
  induction ops with
  | nil =>
    intro s hall _
    exact hall
  | cons op rest ih =>
    intro s hall hv
    obtain ⟨hv1, hv2⟩ := by
      simpa only [validRunB, Bool.and_eq_true] using hv
    simp only [List.foldl_cons]
    refine ih (heapStep P s op) ?_ hv2
    cases op with
    | allocSlot => exact allocSlot_pages P s hd hN hall
    | freeSlot Offset index => exact freeSlot_pages P s Offset index hd hv1 hall

theorem allocSlotCore_inversion (P : DHParams) (s0 s1 : DHState) (h index : Nat)
    (heq : AllocateHeapSlotCore P s0 = (s1, some (h, index))) :
    ∃ restFH stop restR,
      s0.freeHeaps = index :: restFH ∧
      s0.heaps.get? index = some ((h, stop) :: restR) ∧
      s1 = { heaps := s0.heaps.set index
               (if h + P.DescriptorSize = stop then restR
                else (h + P.DescriptorSize, stop) :: restR)
             freeHeaps := if (if h + P.DescriptorSize = stop then restR
                 else (h + P.DescriptorSize, stop) :: restR) = [] then restFH
               else index :: restFH } := by
  unfold AllocateHeapSlotCore at heq
  split at heq
  · simp at heq
  next index2 restFH2 hfh =>
  split at heq
  · simp at heq
  · simp at heq
  next start stop restR hpg =>
  simp only [Prod.mk.injEq, Option.some.injEq] at heq
  obtain ⟨hs1, hh, hi⟩ := heq
  subst hh
  subst hi
  exact ⟨restFH2, stop, restR, hfh, hpg, hs1.symm⟩

theorem allocSlotCore_front (P : DHParams) (s2 : DHState) (index : Nat)
    (restFH : List Nat) (h e : Nat) (rest : List (Nat × Nat))
    (hfh : s2.freeHeaps = index :: restFH)
    (hpg : s2.heaps.get? index = some ((h, e) :: rest)) :
    (AllocateHeapSlotCore P s2).2 = some (h, index) := by
  unfold AllocateHeapSlotCore
  split
  next hfh2 =>
    rw [hfh] at hfh2
    cases hfh2
  next index2 restFH2 hfh2 =>
  rw [hfh] at hfh2
  injection hfh2 with hi hr
  subst hi
  split
  next hpg2 =>
    rw [hpg] at hpg2
    cases hpg2
  next hpg2 =>
    rw [hpg] at hpg2
    simp at hpg2
  next start stop restR hpg2 =>
  rw [hpg] at hpg2
  simp only [Option.some.injEq, List.cons.injEq, Prod.mk.injEq] at hpg2
  obtain ⟨⟨hh, _⟩, _⟩ := hpg2
  subst hh
  rfl

/-! ## Claim theorems -/

/-- C1 (amended): for every state of `CFencedRingBuffer` reachable from
construction with a positive size by a sequence of `Allocate`/`Deallocate`
calls in which every `Allocate` requests `NumItems < Size / 2` and — the
amendment — passes a positive fence value, the logical head
`m_Head - Size` satisfies `0 ≤ tail - head ≤ size` (that is,
`m_Tail ≤ m_Head ≤ m_Tail + Size`) and the sum of `m_NumAllocations` over
the ledger slots whose mask bit is set equals `tail - head`
(`ledgerSum + m_Head = m_Tail + Size`).  Without the positivity amendment the
sum equation fails: see the counterexample. -/
theorem CFencedRingBuffer_invariants (Size : Nat) (hsize : 0 < Size)
    (ops : List RingOp)
    (hreq : ∀ op ∈ ops, allocReqOk (Size / 2) op = true)
    (hpos : ∀ op ∈ ops, allocFencePos op = true) :
    (ringRun Size ops).tail ≤ (ringRun Size ops).head ∧
    (ringRun Size ops).head ≤ (ringRun Size ops).tail + Size ∧
    ledgerSum (ringRun Size ops) + (ringRun Size ops).head =
      (ringRun Size ops).tail + Size := by
  obtain ⟨hinv, hsz⟩ := ringFold_inv ops (ringInit Size) (ringInit_inv Size hsize) hpos
  have hsz2 : (ringRun Size ops).size = Size := by
    unfold ringRun
    rw [hsz]
    rfl
  obtain ⟨_, h2, h3, h4, _⟩ := hinv
  unfold ringRun at hsz2 ⊢
  rw [hsz2] at h3 h4
  exact ⟨h2, h3, h4⟩

/-- Closed instance of `CFencedRingBuffer_invariants`: a single one-item
allocation at fence 1 in a buffer of size 4. -/
theorem CFencedRingBuffer_invariants_witness :
    (ringRun 4 [RingOp.alloc 1 1]).tail ≤ (ringRun 4 [RingOp.alloc 1 1]).head ∧
    (ringRun 4 [RingOp.alloc 1 1]).head ≤ (ringRun 4 [RingOp.alloc 1 1]).tail + 4 ∧
    ledgerSum (ringRun 4 [RingOp.alloc 1 1]) + (ringRun 4 [RingOp.alloc 1 1]).head =
      (ringRun 4 [RingOp.alloc 1 1]).tail + 4 :=
  CFencedRingBuffer_invariants 4 (by decide) [RingOp.alloc 1 1] (by decide) (by decide)

/-- C1 counterexample: the claim as stated quantifies over every sequence
whose allocations request fewer than `size / 2` items, with no condition on
the fence values.  After `Deallocate(0)` clears ledger slot 0 (its fence
value is 0), `Allocate(1, 0)` records its item in that now-dead slot, because
the fence value 0 is not newer than the cleared entry's fence value 0: the
tail advances by 1 while the sum over live ledger slots stays 0, so the sum
equation `Σ live numAllocations = tail - head` is violated. -/
theorem CFencedRingBuffer_sum_counterexample :
    (∀ op ∈ [RingOp.dealloc 0, RingOp.alloc 1 0], allocReqOk (4 / 2) op = true) ∧
    ¬ (ledgerSum (ringRun 4 [RingOp.dealloc 0, RingOp.alloc 1 0]) +
         (ringRun 4 [RingOp.dealloc 0, RingOp.alloc 1 0]).head =
       (ringRun 4 [RingOp.dealloc 0, RingOp.alloc 1 0]).tail + 4) := by
  decide

/-- C2 (amended): for every page of `CDescriptorHeapManager`, after any
sequence of `AllocateHeapSlot` and `FreeHeapSlot` calls in which every freed
handle was previously allocated from that page and not yet freed (so the freed
descriptor's range is disjoint from the page's free ranges, the `validRunB`
check), the page's free list is sorted by ascending `Start` and its ranges are
nonempty and pairwise non-overlapping (`End ≤` the next range's `Start`).  The
claim's further condition that adjacent ranges never touch is false — the code
coalesces a freed slot with at most one neighbour, so freeing a slot that
exactly bridges two free ranges leaves two ranges with `End = Start`; see the
counterexample. -/
theorem CDescriptorHeapManager_freelist_sorted (P : DHParams)
    (hd : 0 < P.DescriptorSize) (hN : 0 < P.NumDescriptors) (ops : List HeapOp)
    (hvalid : validRunB P ⟨[], []⟩ ops = true) :
    ∀ l ∈ (heapRun P ops).heaps, PageInv P.DescriptorSize l := by
  unfold heapRun
  exact heapFold_pages P hd hN ops ⟨[], []⟩ (by intro l hl; cases hl) hvalid

/-- Closed instance of `CDescriptorHeapManager_freelist_sorted`: descriptor
size 1, three slots per page, the fragmentation sequence that allocates three
slots and frees them in the order 0, 2, 1 leaves the (touching but sorted and
disjoint) page `[(0, 2), (2, 3)]`. -/
theorem CDescriptorHeapManager_freelist_sorted_witness :
    PageInv 1 [(0, 2), (2, 3)] :=
  CDescriptorHeapManager_freelist_sorted ⟨1, 3, fun i => 100 * i⟩ (by decide)
    (by decide)
    [HeapOp.allocSlot, HeapOp.allocSlot, HeapOp.allocSlot,
     HeapOp.freeSlot 0 0, HeapOp.freeSlot 2 0, HeapOp.freeSlot 1 0]
    (by decide) [(0, 2), (2, 3)] (by decide)

/-- C2 counterexample: with descriptor size 1 and three descriptors per page,
allocate the three slots 0, 1, 2 and free 0, then 2, then 1 — every freed
handle was previously allocated and not yet freed.  Freeing 1 bridges the two
free ranges: the walk extends `[0, 1)` rightward to `[0, 2)` and stops, never
merging with `[2, 3)`.  The resulting free list `[0, 2), [2, 3)` has two
adjacent ranges that touch, refuting the claim that adjacent ranges never
touch. -/
theorem CDescriptorHeapManager_touch_counterexample :
    validRunB ⟨1, 3, fun i => 100 * i⟩ ⟨[], []⟩
        [HeapOp.allocSlot, HeapOp.allocSlot, HeapOp.allocSlot,
         HeapOp.freeSlot 0 0, HeapOp.freeSlot 2 0, HeapOp.freeSlot 1 0] = true ∧
    (heapRun ⟨1, 3, fun i => 100 * i⟩
        [HeapOp.allocSlot, HeapOp.allocSlot, HeapOp.allocSlot,
         HeapOp.freeSlot 0 0, HeapOp.freeSlot 2 0, HeapOp.freeSlot 1 0]).heaps =
      [[(0, 2), (2, 3)]] ∧
    ¬ StrictNoTouch [(0, 2), (2, 3)] := by
  refine ⟨by decide, by decide, ?_⟩
  simp [StrictNoTouch, List.chain'_cons, List.chain'_singleton]

/-- C7 (amended): from a `CDescriptorHeapManager` state whose pages satisfy
the free-list invariant, if `h = AllocateHeapSlot(&i)` succeeds and afterwards
page `i` still has a non-empty free list or the free-page index list is empty
(in particular whenever the manager has a single page), then
`FreeHeapSlot(h, i); AllocateHeapSlot()` returns the same handle `h` from the
same page `i`.  Without the proviso the claim fails: when the allocation
empties page `i` while another page has free slots, `FreeHeapSlot` re-appends
`i` at the back of `m_FreeHeaps` and the next allocation is served from the
other page — see the counterexample. -/
theorem AllocateHeapSlot_free_realloc (P : DHParams) (s s1 : DHState)
    (h index : Nat) (hd : 0 < P.DescriptorSize) (hN : 0 < P.NumDescriptors)
    (hpage : ∀ l ∈ s.heaps, PageInv P.DescriptorSize l)
    (halloc : AllocateHeapSlot P s = (s1, some (h, index)))
    (hcond : s1.heaps.get? index ≠ some [] ∨ s1.freeHeaps = []) :
    (AllocateHeapSlot P (FreeHeapSlot P s1 h index)).2 = some (h, index) := by
  have hall0 : ∀ l ∈ (if s.freeHeaps = [] then AllocateHeap P s else s).heaps,
      PageInv P.DescriptorSize l := by
    by_cases hfe : s.freeHeaps = []
    · rw [if_pos hfe]
      unfold AllocateHeap
      intro l hl
      rcases List.mem_append.mp hl with hA | hA
      · exact hpage l hA
      · rw [List.mem_singleton.mp hA]
        exact pageInv_whole P.DescriptorSize _ P.NumDescriptors hd hN
    · rw [if_neg hfe]
      exact hpage
  unfold AllocateHeapSlot at halloc
  set s0 := (if s.freeHeaps = [] then AllocateHeap P s else s) with hs0
  obtain ⟨restFH, stop, restR, hfh, hpg, hs1⟩ :=
    allocSlotCore_inversion P s0 s1 h index halloc
  have hpinv0 := hall0 _ (List.get?_mem hpg)
  obtain ⟨⟨⟨_, hhs⟩, hdvd⟩, hrest⟩ := by
    simpa only [PageInv, pageChainB, Bool.and_eq_true, decide_eq_true_eq] using hpinv0
  by_cases hpop : h + P.DescriptorSize = stop
  · rw [if_pos hpop] at hs1
    cases restR with
    | nil =>
      rw [if_pos rfl] at hs1
      subst hs1
      have hget1 : (s0.heaps.set index ([] : List (Nat × Nat))).get? index =
          some [] := by
        rw [List.get?_set_eq, hpg]
        rfl
      have hrestFH : restFH = [] := by
        rcases hcond with hc | hc
        · exact absurd hget1 hc
        · exact hc
      subst hrestFH
      have hfree : FreeHeapSlot P
          { heaps := s0.heaps.set index ([] : List (Nat × Nat)), freeHeaps := [] }
          h index =
          { heaps := (s0.heaps.set index ([] : List (Nat × Nat))).set index
              [(h, h + P.DescriptorSize)]
            freeHeaps := [index] } := by
        unfold FreeHeapSlot
        simp only [hget1]
        rfl
      rw [hfree]
      unfold AllocateHeapSlot
      rw [if_neg (by simp)]
      refine allocSlotCore_front P _ index [] h (h + P.DescriptorSize) [] rfl ?_
      show ((s0.heaps.set index ([] : List (Nat × Nat))).set index
        [(h, h + P.DescriptorSize)]).get? index = _
      rw [List.get?_set_eq, List.get?_set_eq, hpg]
      rfl
    | cons head2 restR2 =>
      rcases head2 with ⟨s2start, s2stop⟩
      rw [if_neg (by simp)] at hs1
      subst hs1
      obtain ⟨⟨⟨hstople, hltj⟩, _⟩, _⟩ := by
        simpa only [pageChainB, Bool.and_eq_true, decide_eq_true_eq] using hrest
      have hget1 : (s0.heaps.set index ((s2start, s2stop) :: restR2)).get? index =
          some ((s2start, s2stop) :: restR2) := by
        rw [List.get?_set_eq, hpg]
        rfl
      by_cases hb1 : s2start = h + P.DescriptorSize
      · have hwalk : FreeWalk P.DescriptorSize h ((s2start, s2stop) :: restR2) =
            some ((h, s2stop) :: restR2) := by
          unfold FreeWalk
          rw [if_pos hb1]
        have hfree : FreeHeapSlot P
            { heaps := s0.heaps.set index ((s2start, s2stop) :: restR2)
              freeHeaps := index :: restFH } h index =
            { heaps := (s0.heaps.set index ((s2start, s2stop) :: restR2)).set index
                ((h, s2stop) :: restR2)
              freeHeaps := index :: restFH } := by
          unfold FreeHeapSlot
          simp only [hget1, hwalk]
        rw [hfree]
        unfold AllocateHeapSlot
        rw [if_neg (by simp)]
        refine allocSlotCore_front P _ index restFH h s2stop restR2 rfl ?_
        show ((s0.heaps.set index ((s2start, s2stop) :: restR2)).set index
          ((h, s2stop) :: restR2)).get? index = _
        rw [List.get?_set_eq, List.get?_set_eq, hpg]
        rfl
      · have hwalk : FreeWalk P.DescriptorSize h ((s2start, s2stop) :: restR2) =
            some ((h, h + P.DescriptorSize) :: (s2start, s2stop) :: restR2) := by
          unfold FreeWalk
          rw [if_neg hb1, if_neg (by omega), if_pos (by omega)]
        have hfree : FreeHeapSlot P
            { heaps := s0.heaps.set index ((s2start, s2stop) :: restR2)
              freeHeaps := index :: restFH } h index =
            { heaps := (s0.heaps.set index ((s2start, s2stop) :: restR2)).set index
                ((h, h + P.DescriptorSize) :: (s2start, s2stop) :: restR2)
              freeHeaps := index :: restFH } := by
          unfold FreeHeapSlot
          simp only [hget1, hwalk]
        rw [hfree]
        unfold AllocateHeapSlot
        rw [if_neg (by simp)]
        refine allocSlotCore_front P _ index restFH h (h + P.DescriptorSize)
          ((s2start, s2stop) :: restR2) rfl ?_
        show ((s0.heaps.set index ((s2start, s2stop) :: restR2)).set index
          ((h, h + P.DescriptorSize) :: (s2start, s2stop) :: restR2)).get? index = _
        rw [List.get?_set_eq, List.get?_set_eq, hpg]
        rfl
  · rw [if_neg hpop] at hs1
    rw [if_neg (by simp)] at hs1
    subst hs1
    have hget1 : (s0.heaps.set index
        ((h + P.DescriptorSize, stop) :: restR)).get? index =
        some ((h + P.DescriptorSize, stop) :: restR) := by
      rw [List.get?_set_eq, hpg]
      rfl
    have hwalk : FreeWalk P.DescriptorSize h ((h + P.DescriptorSize, stop) :: restR) =
        some ((h, stop) :: restR) := by
      unfold FreeWalk
      rw [if_pos rfl]
    have hfree : FreeHeapSlot P
        { heaps := s0.heaps.set index ((h + P.DescriptorSize, stop) :: restR)
          freeHeaps := index :: restFH } h index =
        { heaps := (s0.heaps.set index ((h + P.DescriptorSize, stop) :: restR)).set
            index ((h, stop) :: restR)
          freeHeaps := index :: restFH } := by
      unfold FreeHeapSlot
      simp only [hget1, hwalk]
    rw [hfree]
    unfold AllocateHeapSlot
    rw [if_neg (by simp)]
    refine allocSlotCore_front P _ index restFH h stop restR rfl ?_
    show ((s0.heaps.set index ((h + P.DescriptorSize, stop) :: restR)).set index
      ((h, stop) :: restR)).get? index = _
    rw [List.get?_set_eq, List.get?_set_eq, hpg]
    rfl

/-- Closed instance of `AllocateHeapSlot_free_realloc`: a single page of one
descriptor; the slot is allocated, freed, and allocated again, returning the
same handle 0 from page 0. -/
theorem AllocateHeapSlot_free_realloc_witness :
    (AllocateHeapSlot ⟨1, 1, fun i => 100 * i⟩
      (FreeHeapSlot ⟨1, 1, fun i => 100 * i⟩ ⟨[[]], []⟩ 0 0)).2 = some (0, 0) :=
  AllocateHeapSlot_free_realloc ⟨1, 1, fun i => 100 * i⟩
    (heapRun ⟨1, 1, fun i => 100 * i⟩ [HeapOp.allocSlot, HeapOp.freeSlot 0 0])
    ⟨[[]], []⟩ 0 0 (by decide) (by decide) (by decide) (by decide)
    (Or.inr rfl)

/-- C7 counterexample: the round trip is not the identity for every reachable
state.  With one-descriptor pages, reach the state with pages 0 and 1 both
free (allocate twice, free both).  Allocating then returns handle 0 from page
0 and empties it, so page 0 leaves `m_FreeHeaps`; freeing handle 0 re-appends
page 0 at the back, behind page 1.  The next `AllocateHeapSlot` is served from
page 1 and returns handle 100, not 0. -/
theorem AllocateHeapSlot_free_realloc_counterexample :
    validRunB ⟨1, 1, fun i => 100 * i⟩ ⟨[], []⟩
        [HeapOp.allocSlot, HeapOp.allocSlot,
         HeapOp.freeSlot 0 0, HeapOp.freeSlot 100 1] = true ∧
    (AllocateHeapSlot ⟨1, 1, fun i => 100 * i⟩
        (heapRun ⟨1, 1, fun i => 100 * i⟩
          [HeapOp.allocSlot, HeapOp.allocSlot,
           HeapOp.freeSlot 0 0, HeapOp.freeSlot 100 1])).2 = some (0, 0) ∧
    (AllocateHeapSlot ⟨1, 1, fun i => 100 * i⟩
        (FreeHeapSlot ⟨1, 1, fun i => 100 * i⟩
          (AllocateHeapSlot ⟨1, 1, fun i => 100 * i⟩
            (heapRun ⟨1, 1, fun i => 100 * i⟩
              [HeapOp.allocSlot, HeapOp.allocSlot,
               HeapOp.freeSlot 0 0, HeapOp.freeSlot 100 1])).1 0 0)).2 =
      some (100, 1) := by
  refine ⟨by decide, by decide, by decide⟩

/-- C5: `CFencedRingBuffer::Allocate` never blocks (the embedding is a total
function), and for a positive request it fails exactly when either the ledger
is saturated — the fence value is newer than the current ledger entry's and
the next ledger slot `(index + 1) mod 16` is still marked in use — or, after
any wrap padding, no contiguous range of `NumItems` slots exists
(`paddedTail + NumItems` would exceed `m_Head`, i.e. logical head + size);
in every other case it succeeds. -/
theorem Allocate_failure_characterization (s : RingState)
    (NumItems CurrentFenceValue : Nat) (hsize : 0 < s.size) (hn : 0 < NumItems)
    (hhalf : NumItems < s.size / 2) :
    ((Allocate NumItems CurrentFenceValue s).2 = none ↔
      ((s.ledger s.ledgerIndex).fenceValue < CurrentFenceValue ∧
        s.ledgerMask (s.ledgerIndex + 1) = true) ∨
      s.head < paddedTail s NumItems + NumItems) := by
  unfold Allocate
  rw [allocateAux_succ 1 _ _ _ (by omega)]
  by_cases hfc : (s.ledger s.ledgerIndex).fenceValue < CurrentFenceValue
  · rw [if_pos hfc]
    unfold MoveToNextLedgerEntry
    by_cases hav : s.ledgerMask (s.ledgerIndex + 1) = false
    · rw [if_pos hav]
      dsimp only
      have hiff := padFinish_none_iff 0 NumItems CurrentFenceValue
        { s with
            ledgerIndex := s.ledgerIndex + 1
            ledgerMask := Function.update s.ledgerMask (s.ledgerIndex + 1) true
            ledger := Function.update s.ledger (s.ledgerIndex + 1)
              ⟨CurrentFenceValue, 0⟩ }
        hsize hn (by simp)
      rw [hiff]
      constructor
      · intro hx
        exact Or.inr hx
      · rintro (⟨_, hmask⟩ | hx2)
        · rw [hav] at hmask
          cases hmask
        · exact hx2
    · rw [if_neg hav]
      dsimp only
      have hmask : s.ledgerMask (s.ledgerIndex + 1) = true := by
        cases hb : s.ledgerMask (s.ledgerIndex + 1) with
        | false => exact absurd hb hav
        | true => rfl
      simp [hfc, hmask]
  · rw [if_neg hfc]
    rw [padFinish_none_iff 0 NumItems CurrentFenceValue s hsize hn hfc]
    constructor
    · intro hx
      exact Or.inr hx
    · rintro (⟨hx, _⟩ | hx2)
      · exact absurd hx hfc
      · exact hx2

/-- Closed instance of `Allocate_failure_characterization`: a 2-item request
at fence 1 on a fresh buffer of size 10 (neither failure condition holds and
the allocation indeed succeeds). -/
theorem Allocate_failure_characterization_witness :
    ((Allocate 2 1 (ringInit 10)).2 = none ↔
      (((ringInit 10).ledger (ringInit 10).ledgerIndex).fenceValue < 1 ∧
        (ringInit 10).ledgerMask ((ringInit 10).ledgerIndex + 1) = true) ∨
      (ringInit 10).head < paddedTail (ringInit 10) 2 + 2) :=
  Allocate_failure_characterization (ringInit 10) 2 1 (by decide) (by decide)
    (by decide)

/-- C6: when `CFencedRingBuffer::Allocate(NumItems, fence, out)` succeeds with
`NumItems > 0`, the offset written to `out` equals `tail mod size` as it stood
immediately before the tail was advanced for this allocation (the start of the
new contiguous range): `out = paddedTail mod size`.  When the request wraps,
the returned offset is 0, and the current ledger entry's `m_NumAllocations`
was inflated by the wrap padding `paddedTail - m_Tail` on top of the
`NumItems` of the allocation itself. -/
theorem Allocate_offset_start (s : RingState) (NumItems CurrentFenceValue off : Nat)
    (hsize : 0 < s.size) (hn : 0 < NumItems)
    (hsucc : (Allocate NumItems CurrentFenceValue s).2 = some off) :
    (off = paddedTail s NumItems % s.size ∧
      (s.size < s.tail % s.size + NumItems → off = 0)) ∧
    (∀ s1, s1 = (if (s.ledger s.ledgerIndex).fenceValue < CurrentFenceValue
        then (MoveToNextLedgerEntry CurrentFenceValue s).1 else s) →
      ((Allocate NumItems CurrentFenceValue s).1.ledger s1.ledgerIndex).numAllocations =
        (s1.ledger s1.ledgerIndex).numAllocations +
          (paddedTail s NumItems - s.tail) + NumItems) := by
  have hmod : s.tail % s.size < s.size := Nat.mod_lt _ hsize
  unfold Allocate at hsucc ⊢
  rw [allocateAux_succ 1 _ _ _ (by omega)] at hsucc ⊢
  by_cases hfc : (s.ledger s.ledgerIndex).fenceValue < CurrentFenceValue
  · simp only [if_pos hfc] at hsucc ⊢
    unfold MoveToNextLedgerEntry at hsucc ⊢
    by_cases hav : s.ledgerMask (s.ledgerIndex + 1) = false
    · simp only [if_pos hav] at hsucc ⊢
      have hkey := padFinish_offset 0 NumItems CurrentFenceValue
        { s with
            ledgerIndex := s.ledgerIndex + 1
            ledgerMask := Function.update s.ledgerMask (s.ledgerIndex + 1) true
            ledger := Function.update s.ledger (s.ledgerIndex + 1)
              ⟨CurrentFenceValue, 0⟩ }
        hsize hn (by simp) off hsucc
      refine ⟨⟨hkey.1, ?_⟩, ?_⟩
      · intro hwrap
        rw [hkey.1]
        show paddedTail s NumItems % s.size = 0
        unfold paddedTail
        rw [if_pos hwrap]
        exact padded_mod_zero s.tail s.size hsize
      · intro s1 hs1
        subst hs1
        exact hkey.2
    · simp only [if_neg hav] at hsucc
      cases hsucc
  · simp only [if_neg hfc] at hsucc ⊢
    have hkey := padFinish_offset 0 NumItems CurrentFenceValue s hsize hn hfc off hsucc
    refine ⟨⟨hkey.1, ?_⟩, ?_⟩
    · intro hwrap
      rw [hkey.1]
      unfold paddedTail
      rw [if_pos hwrap]
      exact padded_mod_zero s.tail s.size hsize
    · intro s1 hs1
      subst hs1
      exact hkey.2

/-- Closed instance of `Allocate_offset_start`: in a buffer of size 10 with
tail at 7 and everything reclaimed (head at 17), a 4-item request at fence 2
wraps: 3 padding items are thrown away and the returned offset 0 is the start
of the range, with the current ledger entry recording 3 + 4 = 7 allocations. -/
theorem Allocate_offset_start_witness :
    (0 : Nat) = paddedTail (ringRun 10 [RingOp.alloc 7 1, RingOp.dealloc 1]) 4 %
        (ringRun 10 [RingOp.alloc 7 1, RingOp.dealloc 1]).size ∧
    ((Allocate 4 2 (ringRun 10 [RingOp.alloc 7 1, RingOp.dealloc 1])).1.ledger
        (MoveToNextLedgerEntry 2
          (ringRun 10 [RingOp.alloc 7 1, RingOp.dealloc 1])).1.ledgerIndex).numAllocations =
      ((MoveToNextLedgerEntry 2 (ringRun 10 [RingOp.alloc 7 1, RingOp.dealloc 1])).1.ledger
          (MoveToNextLedgerEntry 2
            (ringRun 10 [RingOp.alloc 7 1, RingOp.dealloc 1])).1.ledgerIndex).numAllocations +
        (paddedTail (ringRun 10 [RingOp.alloc 7 1, RingOp.dealloc 1]) 4 -
          (ringRun 10 [RingOp.alloc 7 1, RingOp.dealloc 1]).tail) + 4 :=
  have key := Allocate_offset_start (ringRun 10 [RingOp.alloc 7 1, RingOp.dealloc 1]) 4 2 0
    (by decide) (by decide) (by decide)
  ⟨key.1.1, key.2 (MoveToNextLedgerEntry 2
    (ringRun 10 [RingOp.alloc 7 1, RingOp.dealloc 1])).1 rfl⟩

/-- C4: `CFencePool::RetrieveFromPool(completed, createNew, args...)` returns
the result of `createNew` and leaves the pool unchanged when the pool is empty
or the head's fence value is strictly greater than `completed`; otherwise it
removes the head entry and returns its resource.  Consequently, on an empty
pool after `return(R1, 10); return(R2, 20)`: retrieve with completed 15
returns R1, a second retrieve with completed 15 invokes `createNew`, and
retrieve with completed 25 returns R2 (scenario with `R1 = 1`, `R2 = 2`). -/
theorem CFencePool_retrieve_spec {α : Type} (completed : Nat) (fresh : α)
    (pool : List (Nat × α)) :
    (pool = [] → RetrieveFromPool completed fresh pool = ⟨fresh, [], true, []⟩) ∧
    (∀ f r rest, pool = (f, r) :: rest → completed < f →
        RetrieveFromPool completed fresh pool = ⟨fresh, pool, true, []⟩) ∧
    (∀ f r rest, pool = (f, r) :: rest → f ≤ completed →
        RetrieveFromPool completed fresh pool = ⟨r, rest, false, []⟩) ∧
    (let p2 := ReturnToPool false (ReturnToPool false ([] : List (Nat × Nat)) 10 1) 20 2
     let first := RetrieveFromPool 15 99 p2
     first.result = 1 ∧ first.createdNew = false ∧
     (RetrieveFromPool 15 99 first.pool).createdNew = true ∧
     (RetrieveFromPool 15 99 first.pool).pool = first.pool ∧
     (RetrieveFromPool 25 99 first.pool).result = 2) := by
  refine ⟨fun h => by simp [h, RetrieveFromPool], ?_, ?_, by decide⟩
  · intro f r rest h hlt
    simp [h, RetrieveFromPool, hlt]
  · intro f r rest h hle
    simp [h, RetrieveFromPool, Nat.not_lt.mpr hle]

/-- Closed instance of `CFencePool_retrieve_spec`: on the pool `[(3, 4)]` with
completed fence 5 the head is eligible, so it is popped and returned. -/
theorem CFencePool_retrieve_spec_witness :
    RetrieveFromPool 5 (7 : Nat) [(3, 4)] = ⟨4, [], false, []⟩ :=
  (CFencePool_retrieve_spec 5 7 [(3, 4)]).2.2.1 3 4 [] rfl (by decide)

/-- C3: `CBoundedFencePool::RetrieveFromPool(completed, wait, create)`: on an
empty pool it returns `create`'s result; when the head is still in flight and
the pool size is below `maxInFlightDepth` it returns `create`'s result;
when the head is still in flight and the size is at least `maxInFlightDepth`
it calls `wait(headFence)` exactly once, then removes and returns the head —
never invoking `create`; when the head's fence has completed it removes and
returns the head.  The scenario: depth 1, `return(R, 50)`, completed 40:
`wait(50)` is invoked, R is popped and returned, `create` is never invoked. -/
theorem CBoundedFencePool_retrieve_spec {α : Type} (completed MaxInFlightDepth : Nat)
    (fresh : α) (pool : List (Nat × α)) :
    (pool = [] → BoundedRetrieveFromPool completed MaxInFlightDepth fresh pool =
        ⟨fresh, [], true, []⟩) ∧
    (∀ f r rest, pool = (f, r) :: rest → completed < f →
        pool.length < MaxInFlightDepth →
        BoundedRetrieveFromPool completed MaxInFlightDepth fresh pool =
          ⟨fresh, pool, true, []⟩) ∧
    (∀ f r rest, pool = (f, r) :: rest → completed < f →
        MaxInFlightDepth ≤ pool.length →
        BoundedRetrieveFromPool completed MaxInFlightDepth fresh pool =
          ⟨r, rest, false, [f]⟩) ∧
    (∀ f r rest, pool = (f, r) :: rest → f ≤ completed →
        BoundedRetrieveFromPool completed MaxInFlightDepth fresh pool =
          ⟨r, rest, false, []⟩) ∧
    BoundedRetrieveFromPool 40 1 (99 : Nat) (ReturnToPool false [] 50 7) =
      ⟨7, [], false, [50]⟩ := by
  refine ⟨fun h => by simp [h, BoundedRetrieveFromPool], ?_, ?_, ?_, by decide⟩
  · intro f r rest h hlt hdepth
    subst h
    simp only [List.length_cons] at hdepth
    simp [BoundedRetrieveFromPool, hlt, hdepth]
  · intro f r rest h hlt hdepth
    subst h
    simp only [List.length_cons] at hdepth
    simp [BoundedRetrieveFromPool, hlt, Nat.not_lt.mpr hdepth]
  · intro f r rest h hle
    simp [h, BoundedRetrieveFromPool, Nat.not_lt.mpr hle]

/-- Closed instance of `CBoundedFencePool_retrieve_spec`: the blocking branch
at depth 1 with head fence 50 and completed fence 40. -/
theorem CBoundedFencePool_retrieve_spec_witness :
    BoundedRetrieveFromPool 40 1 (99 : Nat) [(50, 7)] = ⟨7, [], false, [50]⟩ :=
  (CBoundedFencePool_retrieve_spec 40 1 99 [(50, 7)]).2.2.1 50 7 [] rfl (by decide)
    (by decide)

/-- C8: `CFencePool::ReturnToPool(resource, fenceValue)` never fails
observably: it either appends `(fenceValue, resource)` at the tail of the
pool, or — when allocating the pool entry fails with `bad_alloc` — leaves the
pool unchanged and drops the resource; in both cases it returns normally. -/
theorem CFencePool_return_never_fails {α : Type} (oom : Bool)
    (pool : List (Nat × α)) (FenceValue : Nat) (Resource : α) :
    ReturnToPool oom pool FenceValue Resource = pool ++ [(FenceValue, Resource)] ∨
    (oom = true ∧ ReturnToPool oom pool FenceValue Resource = pool) := by
  cases oom with
  | false => exact Or.inl (by simp [ReturnToPool])
  | true => exact Or.inr ⟨rfl, by simp [ReturnToPool]⟩

/-- C9: `DeferredDeletionQueueManager::AddSuballocationToQueue` destroys the
newly created `RetiredSuballocationBlock` immediately — returning the
suballocation to its parent allocator and pushing nothing — exactly when it is
already ready-to-destroy; otherwise it pushes it onto the deferred
suballocation queue and does not destroy it. -/
theorem AddSuballocationToQueue_fast_path {cltMax : Nat}
    (ready : RetiredSuballocationBlockM cltMax → Bool)
    (queue : List (RetiredSuballocationBlockM cltMax)) (block : Nat)
    (CommandListType : Fin cltMax) (lastCommandListID : Nat) :
    (ready (RetiredSuballocationBlockM.mkSingle block CommandListType
        lastCommandListID) = true →
      AddSuballocationToQueue ready queue block CommandListType lastCommandListID =
        (queue, some block)) ∧
    (ready (RetiredSuballocationBlockM.mkSingle block CommandListType
        lastCommandListID) = false →
      AddSuballocationToQueue ready queue block CommandListType lastCommandListID =
        (queue ++ [RetiredSuballocationBlockM.mkSingle block CommandListType
          lastCommandListID], none)) := by
  constructor
  · intro h
    simp only [AddSuballocationToQueue, h, Bool.true_eq_false, if_false]
    rfl
  · intro h
    simp [AddSuballocationToQueue, h]

/-- Closed instance of `AddSuballocationToQueue_fast_path`: with a predicate
that is always true, the block is destroyed immediately and the queue is left
empty. -/
theorem AddSuballocationToQueue_fast_path_witness :
    AddSuballocationToQueue (fun _ => true) [] 42 (0 : Fin 3) 7 = ([], some 42) :=
  (AddSuballocationToQueue_fast_path (fun _ => true) [] 42 (0 : Fin 3) 7).1 rfl

/-- C10: both `RetiredSuballocationBlock` constructors hard-code
`completionRequired = true`, so — with `ReadyToDestroy` modelled from the
spec — readiness of a retired suballocation never depends on the
device-teardown waiver, and readiness implies that every positive recorded
last-command-list ID has been reached by the corresponding completed fence. -/
theorem RetiredSuballocationBlock_completionRequired {cltMax : Nat} (block : Nat)
    (CommandListType : Fin cltMax) (lastCommandListID : Nat)
    (lastCommandListIDs : Fin cltMax → Nat) (completedFence : Fin cltMax → Nat)
    (deviceBeingDestroyed : Bool) (waitSatisfied : Nat × Nat → Bool) :
    (RetiredSuballocationBlockM.mkSingle block CommandListType
        lastCommandListID).retired.completionRequired = true ∧
    (RetiredSuballocationBlockM.mkAll block
        lastCommandListIDs).retired.completionRequired = true ∧
    readyToDestroySpec completedFence deviceBeingDestroyed waitSatisfied
        (RetiredSuballocationBlockM.mkSingle block CommandListType
          lastCommandListID).retired =
      readyToDestroySpec completedFence false waitSatisfied
        (RetiredSuballocationBlockM.mkSingle block CommandListType
          lastCommandListID).retired ∧
    readyToDestroySpec completedFence deviceBeingDestroyed waitSatisfied
        (RetiredSuballocationBlockM.mkAll block lastCommandListIDs).retired =
      readyToDestroySpec completedFence false waitSatisfied
        (RetiredSuballocationBlockM.mkAll block lastCommandListIDs).retired ∧
    (readyToDestroySpec completedFence deviceBeingDestroyed waitSatisfied
        (RetiredSuballocationBlockM.mkAll block lastCommandListIDs).retired = true →
      ∀ t, 0 < lastCommandListIDs t → lastCommandListIDs t ≤ completedFence t) := by
  refine ⟨rfl, rfl, ?_, ?_, ?_⟩
  · simp [readyToDestroySpec, RetiredSuballocationBlockM.mkSingle,
      RetiredObjectM.mkSingle]
  · simp [readyToDestroySpec, RetiredSuballocationBlockM.mkAll,
      RetiredObjectM.mkAll]
  · intro h t ht
    simp only [readyToDestroySpec, RetiredSuballocationBlockM.mkAll,
      RetiredObjectM.mkAll, Bool.and_eq_true, decide_eq_true_eq] at h
    rcases h.1 t ht with h2 | h2
    · exact h2
    · exact absurd h2.1 (by simp)

/-- Closed instance of `RetiredSuballocationBlock_completionRequired` at
three command-list types: the single-ID constructor hard-codes
`completionRequired = true`. -/
theorem RetiredSuballocationBlock_completionRequired_witness :
    (RetiredSuballocationBlockM.mkSingle 42 (0 : Fin 3)
      7).retired.completionRequired = true :=
  (RetiredSuballocationBlock_completionRequired 42 (0 : Fin 3) 7 (fun _ => 9)
    (fun _ => 5) true (fun _ => true)).1

end OpenCLOn12
